import Mathlib

/-!
# Vienna Photo Booth — verification of the retention policy and the frame pipeline

Shallow embedding of the algorithmic core of the photo-booth server:

* the artifact retention manager (`src/utils/cleanup.js`, class `CleanupManager`);
* the transparency-region detector and frame compositor
  (`ImageProcessor.detectFramePlacement`, `ImageProcessor.applyFrame`).

Machine integers of the source are modelled as `Nat`/`Int` (all quantities
involved — byte sizes, millisecond timestamps, pixel counts — stay far below
2^53, where JavaScript arithmetic is exact).  Asynchronous fallible code is
modelled with explicit `Except` results plus explicit state passing of the
artifact store.
-/

/-! ## Artifact store model (`src/utils/cleanup.js`)

A file in the uploads directory is an artifact record `{name, size, mtime}`
(as produced by `CleanupManager.getUploadFiles` from `fs.readdir`/`fs.stat`).
The extra flag `failDelete` models the environment: it says whether an
`fs.unlink` on this file would fail (permission error, already removed).
-/

deriving instance DecidableEq for Except

structure FileRec where
  name : String
  size : Nat
  mtime : Nat
  failDelete : Bool
deriving DecidableEq, Repr

/-- Configuration of `CleanupManager`: `this.maxAge` (ms) and `this.maxSize`
(bytes), settable via `setConfig`. -/
structure CleanupConfig where
  maxAge : Nat
  maxSize : Nat
deriving DecidableEq, Repr

/-- Constructor defaults: 24 hours, 100 MB. -/
def defaultCleanupConfig : CleanupConfig :=
  ⟨24 * 60 * 60 * 1000, 100 * 1024 * 1024⟩

/-- The `{deletedCount, totalSize}` record returned by both passes. -/
structure CleanResult where
  deletedCount : Nat
  totalSize : Nat
deriving DecidableEq, Repr

/-- `path.extname(filename)` for a plain basename (the inputs come from
`fs.readdir`, so they contain no directory separators): the suffix starting at
the last `.`, except that a dot that is the first character starts no
extension (`.gitignore` has extension `""`). -/
def extname (s : String) : String :=
  let cs := s.toList
  match ((List.range cs.length).filter (fun i => cs.getD i ' ' = '.')).getLast? with
  | none => ""
  | some 0 => ""
  | some i => String.mk (cs.drop i)

/-- `String.prototype.toLowerCase` restricted to the ASCII range, which is all
that file extensions exercise. -/
def toLowerString (s : String) : String :=
  String.mk (s.toList.map Char.toLower)

/-- `this.supportedExtensions` constructor default. -/
def supportedExtensions : List String := [".jpg", ".jpeg", ".png"]

/-- `CleanupManager.isImageFile`. -/
def isImageFile (filename : String) : Bool :=
  supportedExtensions.contains (toLowerString (extname filename))

/-- `CleanupManager.getUploadFiles`: list the store and keep the image files
(in directory order). -/
def getUploadFiles (store : List FileRec) : List FileRec :=
  store.filter (fun f => isImageFile f.name)

/-- Effect of `fs.unlink` on the store: the named file is removed. -/
def eraseName (store : List FileRec) (n : String) : List FileRec :=
  store.filter (fun f => f.name ≠ n)

/-- The loop body of `CleanupManager.cleanOldFiles`: iterate over the
candidate image files; a file strictly older than `maxAge` is unlinked, any
other file contributes its size to `totalSize`.  The enclosing
`try`/`catch` of the source logs and **re-throws** an `fs.unlink` error, so a
failing deletion aborts the loop with `Except.error` (carrying the failing
file's name) and the store keeps every file not yet deleted. -/
def ageLoop (cfg : CleanupConfig) (now : Nat) :
    List FileRec → Nat → Nat → List FileRec → Except String CleanResult × List FileRec
  | [], dc, ts, store => (.ok ⟨dc, ts⟩, store)
  | f :: rest, dc, ts, store =>
    if (now : Int) - (f.mtime : Int) > (cfg.maxAge : Int) then
      if f.failDelete then (.error f.name, store)
      else ageLoop cfg now rest (dc + 1) ts (eraseName store f.name)
    else ageLoop cfg now rest dc (ts + f.size) store

/-- `CleanupManager.cleanOldFiles` (the age pass), returning the thrown-or-
returned result together with the resulting store. -/
def cleanOldFiles (cfg : CleanupConfig) (now : Nat) (store : List FileRec) :
    Except String CleanResult × List FileRec :=
  ageLoop cfg now (getUploadFiles store) 0 0 store

/-- `files.sort((a, b) => a.mtime - b.mtime)`: a stable ascending sort by
modification time (`Array.prototype.sort` is stable, as is insertion sort). -/
def sortByMtime (files : List FileRec) : List FileRec :=
  List.insertionSort (fun a b => a.mtime ≤ b.mtime) files

/-- The deletion loop of `CleanupManager.cleanBySize` over the mtime-sorted
candidates: stop as soon as the running total is within `maxSize`, otherwise
unlink the head and subtract its size.  As in `ageLoop`, an `fs.unlink`
failure is re-thrown by the enclosing `try`/`catch`. -/
def sizeLoop (cfg : CleanupConfig) :
    List FileRec → Nat → Nat → List FileRec → Except String CleanResult × List FileRec
  | [], dc, ts, store => (.ok ⟨dc, ts⟩, store)
  | f :: rest, dc, ts, store =>
    if ts ≤ cfg.maxSize then (.ok ⟨dc, ts⟩, store)
    else if f.failDelete then (.error f.name, store)
    else sizeLoop cfg rest (dc + 1) (ts - f.size) (eraseName store f.name)

/-- `CleanupManager.cleanBySize` (the size pass). -/
def cleanBySize (cfg : CleanupConfig) (store : List FileRec) :
    Except String CleanResult × List FileRec :=
  let files := getUploadFiles store
  let total := (files.map FileRec.size).sum
  if total ≤ cfg.maxSize then (.ok ⟨0, total⟩, store)
  else sizeLoop cfg (sortByMtime files) 0 total store

/-- Statistics record of `CleanupManager.getUploadStats` (the human-readable
string renderings `totalSizeFormatted`/`formatDuration` are presentation-only
and omitted; the oldest-file age is kept in seconds). -/
structure UploadStats where
  fileCount : Nat
  totalSize : Nat
  oldestFile : Option String
  oldestFileAgeSecs : Option Int
deriving DecidableEq, Repr

/-- `files.reduce((oldest, file) => file.mtime < oldest.mtime ? file : oldest)`
— no initial value, so the seed is the first element and the result is `none`
on an empty list (the source guards with `files.length > 0`). -/
def oldestOf : List FileRec → Option FileRec
  | [] => none
  | f :: rest =>
    some (rest.foldl (fun oldest file => if file.mtime < oldest.mtime then file else oldest) f)

/-- `CleanupManager.getUploadStats`. -/
def getUploadStats (now : Nat) (store : List FileRec) : UploadStats :=
  let files := getUploadFiles store
  let oldest := oldestOf files
  { fileCount := files.length
    totalSize := (files.map FileRec.size).sum
    oldestFile := oldest.map FileRec.name
    oldestFileAgeSecs := oldest.map (fun f => ((now : Int) - (f.mtime : Int)) / 1000) }

/-- `CleanupManager.runFullCleanup` launches **both** passes with
`Promise.all([this.cleanOldFiles(), this.cleanBySize()])`.  Each pass starts
by awaiting its own `getUploadFiles`; under Node's event loop both `readdir`
snapshots are taken before either pass performs its first `unlink`, so each
pass computes over the *initial* store, exactly as if it ran alone.  We
therefore embed `runFullCleanup` as the pair of the two passes, each applied
to the initial store. -/
def runFullCleanup (cfg : CleanupConfig) (now : Nat) (store : List FileRec) :
    (Except String CleanResult × List FileRec) × (Except String CleanResult × List FileRec) :=
  (cleanOldFiles cfg now store, cleanBySize cfg store)

/-- Modelled from the spec: the retention run the specification describes —
an age pass followed by a size pass that "computes its total size over, and
deletes only from, the survivors of the age pass".  This definition exists
only to be compared with `runFullCleanup`, the embedding of the source. -/
def runRetentionOrderedSpec (cfg : CleanupConfig) (now : Nat) (store : List FileRec) :
    (Except String CleanResult × List FileRec) × (Except String CleanResult × List FileRec) :=
  let age := cleanOldFiles cfg now store
  (age, cleanBySize cfg age.2)

/-! ## Frame raster model (`ImageProcessor.detectFramePlacement`)

A frame decoded by `sharp(...).raw().toBuffer({resolveWithObject: true})` is a
contiguous sample buffer `data` with metadata `{width, height, channels}`; the
sample of channel `c` of pixel `(x, y)` sits at index
`(y * width + x) * channels + c`. -/

structure Frame where
  width : Nat
  height : Nat
  channels : Nat
  data : Nat → Nat
deriving Inhabited

/-- `const alpha = channels === 4 ? data[index + 3] : 255`. -/
def alphaAt (f : Frame) (x y : Nat) : Nat :=
  if f.channels = 4 then f.data ((y * f.width + x) * f.channels + 3) else 255

/-- The scan order of the nested loop (`y` outer, `x` inner); elements are
`(x, y)` coordinate pairs. -/
def pixelList (f : Frame) : List (Nat × Nat) :=
  (List.range f.height).flatMap (fun y => (List.range f.width).map (fun x => (x, y)))

/-- The pixels the scan classifies as transparent (`alpha < 25`), in scan
order. -/
def transparentList (f : Frame) : List (Nat × Nat) :=
  (pixelList f).filter (fun p => alphaAt f p.1 p.2 < 25)

/-- `transparentPixels`, the count accumulated by the scan. -/
def tpCount (f : Frame) : Nat := (transparentList f).length

/-- `minX`: starts at `width`, lowered by every transparent pixel's `x`. -/
def minXv (f : Frame) : Nat :=
  (transparentList f).foldl (fun a p => min a p.1) f.width

/-- `minY`: starts at `height`, lowered by every transparent pixel's `y`. -/
def minYv (f : Frame) : Nat :=
  (transparentList f).foldl (fun a p => min a p.2) f.height

/-- `maxX`: starts at `0`, raised by every transparent pixel's `x`. -/
def maxXv (f : Frame) : Nat :=
  (transparentList f).foldl (fun a p => max a p.1) 0

/-- `maxY`: starts at `0`, raised by every transparent pixel's `y`. -/
def maxYv (f : Frame) : Nat :=
  (transparentList f).foldl (fun a p => max a p.2) 0

/-- The `{top, left, width, height}` record returned by the detector. -/
structure Placement where
  top : Nat
  left : Nat
  width : Nat
  height : Nat
deriving DecidableEq, Repr

/-- `ImageProcessor.detectFramePlacement`.

The fallback test of the source is
`!hasTransparentArea || transparentPercentage < 5` with
`transparentPercentage = (transparentPixels / totalPixels) * 100` computed in
IEEE doubles; for every pixel count below ~7·10^16 the double comparison
agrees with the exact rational one, which over `Nat` is
`20 * transparentPixels < totalPixels`.  Likewise
`Math.floor(width * 0.2) = width / 5` (Nat division) for every realistic
width.  `hasTransparentArea` is set exactly when some scanned pixel is
transparent, i.e. `tpCount f ≠ 0`. -/
def detectFramePlacement (f : Frame) : Placement :=
  if tpCount f = 0 ∨ 20 * tpCount f < f.width * f.height then
    ⟨0, 0, f.width, f.height⟩
  else
    let minX := minXv f
    let minY := minYv f
    let placementWidth := maxXv f - minX + 1
    let placementHeight := maxYv f - minY + 1
    let minWidth := max placementWidth (f.width / 5)
    let minHeight := max placementHeight (f.height / 5)
    let finalWidth := min minWidth (f.width - minX)
    let finalHeight := min minHeight (f.height - minY)
    ⟨minY, minX, finalWidth, finalHeight⟩

/-- A concrete frame family used to instantiate theorems: a `W×H` 4-channel
raster whose alpha samples are `0` exactly inside the rectangle
`[l, l+w) × [t, t+h)` and `255` elsewhere (colour samples are `0`). -/
def rectFrame (W H l t w h : Nat) : Frame :=
  ⟨W, H, 4, fun i =>
    if i % 4 = 3 then
      let q := i / 4
      let x := q % W
      let y := q / W
      if l ≤ x ∧ x < l + w ∧ t ≤ y ∧ y < t + h then 0 else 255
    else 0⟩

/-! ## Compositing model (`ImageProcessor.applyFrame`)

`applyFrame` orchestrates the raster codec (sharp): it detects the placement,
cover-resizes the photo to the placement's dimensions, JPEG-encodes the
resized photo, and composites it onto the frame at `(left, top)`.  The codec
operations themselves are external library code; their raster semantics are
modelled from the spec below. -/

structure Raster where
  width : Nat
  height : Nat
  pix : Nat → Nat → Nat

/-- Modelled from the spec: `resize(w, h, {fit: 'cover', position: 'center'})`
— "scale the photo preserving aspect ratio until it fully covers `w×h`, then
crop the overflow symmetrically (centered)", producing "a raster of exactly
`w×h` pixels".  The scale factor is `max(w/pw, h/ph)`; the binding axis is
sampled directly and the other axis is sampled through a centered offset
(nearest-neighbour rounding idealises the codec's resampling kernel). -/
def coverResize (p : Raster) (w h : Nat) : Raster :=
  ⟨w, h, fun x y =>
    if h * p.width ≤ w * p.height then
      let offY := (p.height * w / p.width - h) / 2
      p.pix (x * p.width / w) ((y + offY) * p.width / w)
    else
      let offX := (p.width * h / p.height - w) / 2
      p.pix ((x + offX) * p.height / h) (y * p.height / h)⟩

/-- The JPEG encode/decode round trip of the resized photo
(`.jpeg({quality}).toBuffer()` then compositing reads it back): dimensions are
preserved; the per-pixel effect of the lossy codec is an arbitrary parameter
`codecPix`. -/
def jpegReencode (codecPix : Raster → Nat → Nat → Nat) (r : Raster) : Raster :=
  ⟨r.width, r.height, fun x y => codecPix r x y⟩

/-- Modelled from the spec: `sharp(frame).composite([{input, top, left}])` —
"writes this fitted raster onto a copy of the frame raster at offset
`(left, top)`, leaving every frame pixel outside the rectangle unchanged"
(the overlay is a fully opaque JPEG, so inside the rectangle the overlay's
pixel replaces the frame's). -/
def compositeImage (base overlay : Raster) (left top : Nat) : Raster :=
  ⟨base.width, base.height, fun x y =>
    if left ≤ x ∧ x < left + overlay.width ∧ top ≤ y ∧ y < top + overlay.height then
      overlay.pix (x - left) (y - top)
    else base.pix x y⟩

/-- The frame asset viewed as the colour raster the compositor draws on (the
representative sample of pixel `(x, y)` is its first channel). -/
def frameRaster (f : Frame) : Raster :=
  ⟨f.width, f.height, fun x y => f.data ((y * f.width + x) * f.channels)⟩

/-- `ImageProcessor.applyFrame` at the raster level. -/
def applyFrame (codecPix : Raster → Nat → Nat → Nat) (photo : Raster) (f : Frame) : Raster :=
  let placement := detectFramePlacement f
  let resized := jpegReencode codecPix
    (coverResize photo placement.width placement.height)
  compositeImage (frameRaster f) resized placement.left placement.top

/-! ## Encoding trace of the pipeline (`applyFrame` + `saveImage`)

For the claim about lossy encodes we record the sequence of codec operations
a compositing request performs, read off the source: `applyFrame` resizes the
photo, JPEG-encodes it (`.jpeg({quality: this.defaultQuality}).toBuffer()`),
PNG-encodes the frame (`.png().toBuffer()`), and composites; `saveImage`
then JPEG-encodes the composite with an explicit quality. -/

inductive ImgOp where
  | resizeStep (w h : Nat)
  | jpegEncode (quality : Nat)
  | pngEncode
  | compositeStep
deriving DecidableEq, Repr

/-- JPEG encoding is the only quality-controlled lossy encode in the
pipeline; PNG encoding, resizing and compositing are lossless. -/
def isLossyEncode : ImgOp → Bool
  | .jpegEncode _ => true
  | _ => false

/-- The codec operations of `ImageProcessor.applyFrame`, in source order. -/
def applyFrameOps (defaultQuality : Nat) (p : Placement) : List ImgOp :=
  [.resizeStep p.width p.height, .jpegEncode defaultQuality, .pngEncode, .compositeStep]

/-- The codec operations of `ImageProcessor.saveImage`. -/
def saveImageOps (quality : Nat) : List ImgOp :=
  [.jpegEncode quality]

/-- A full compositing request: `processImage` (whose image work is
`applyFrame`) followed by the final `saveImage`. -/
def processAndSaveOps (defaultQuality quality : Nat) (p : Placement) : List ImgOp :=
  applyFrameOps defaultQuality p ++ saveImageOps quality

/-! ## Helper lemmas: folds computing minima/maxima, and the pixel scan -/

lemma foldl_min_le_init {α : Type} (g : α → Nat) :
    ∀ (l : List α) (a : Nat), l.foldl (fun acc x => min acc (g x)) a ≤ a := by
  intro l
  induction l with
  | nil => intro a; exact le_rfl
  | cons x xs ih =>
    intro a
    exact le_trans (ih (min a (g x))) (min_le_left _ _)

lemma foldl_min_le_mem {α : Type} (g : α → Nat) :
    ∀ (l : List α) (a : Nat) (x : α), x ∈ l →
      l.foldl (fun acc y => min acc (g y)) a ≤ g x := by
  intro l
  induction l with
  | nil => intro a x hx; cases hx
  | cons y ys ih =>
    intro a x hx
    rcases List.mem_cons.mp hx with h | h
    · subst h
      exact le_trans (foldl_min_le_init g ys (min a (g x))) (min_le_right _ _)
    · exact ih (min a (g y)) x h

lemma le_foldl_min {α : Type} (g : α → Nat) :
    ∀ (l : List α) (a m : Nat), m ≤ a → (∀ x ∈ l, m ≤ g x) →
      m ≤ l.foldl (fun acc y => min acc (g y)) a := by
  intro l
  induction l with
  | nil => intro a m hm _; exact hm
  | cons y ys ih =>
    intro a m hm hl
    exact ih (min a (g y)) m (le_min hm (hl y (List.mem_cons_self y ys)))
      (fun x hx => hl x (List.mem_cons_of_mem y hx))

lemma init_le_foldl_max {α : Type} (g : α → Nat) :
    ∀ (l : List α) (a : Nat), a ≤ l.foldl (fun acc x => max acc (g x)) a := by
  intro l
  induction l with
  | nil => intro a; exact le_rfl
  | cons x xs ih =>
    intro a
    exact le_trans (le_max_left _ _) (ih (max a (g x)))

lemma mem_le_foldl_max {α : Type} (g : α → Nat) :
    ∀ (l : List α) (a : Nat) (x : α), x ∈ l →
      g x ≤ l.foldl (fun acc y => max acc (g y)) a := by
  intro l
  induction l with
  | nil => intro a x hx; cases hx
  | cons y ys ih =>
    intro a x hx
    rcases List.mem_cons.mp hx with h | h
    · subst h
      exact le_trans (le_max_right _ _) (init_le_foldl_max g ys (max a (g x)))
    · exact ih (max a (g y)) x h

lemma foldl_max_le {α : Type} (g : α → Nat) :
    ∀ (l : List α) (a m : Nat), a ≤ m → (∀ x ∈ l, g x ≤ m) →
      l.foldl (fun acc y => max acc (g y)) a ≤ m := by
  intro l
  induction l with
  | nil => intro a m hm _; exact hm
  | cons y ys ih =>
    intro a m hm hl
    exact ih (max a (g y)) m (max_le hm (hl y (List.mem_cons_self y ys)))
      (fun x hx => hl x (List.mem_cons_of_mem y hx))

lemma mem_pixelList {f : Frame} {p : Nat × Nat} :
    p ∈ pixelList f ↔ p.1 < f.width ∧ p.2 < f.height := by
  unfold pixelList
  simp only [List.mem_flatMap, List.mem_map, List.mem_range]
  constructor
  · rintro ⟨y, hy, x, hx, rfl⟩
    exact ⟨hx, hy⟩
  · rintro ⟨h1, h2⟩
    exact ⟨p.2, h2, p.1, h1, rfl⟩

lemma mem_transparentList {f : Frame} {p : Nat × Nat} :
    p ∈ transparentList f ↔
      (p.1 < f.width ∧ p.2 < f.height) ∧ alphaAt f p.1 p.2 < 25 := by
  unfold transparentList
  rw [List.mem_filter, mem_pixelList]
  simp

lemma nodup_pixelList (f : Frame) : (pixelList f).Nodup := by
  unfold pixelList
  rw [List.nodup_flatMap]
  constructor
  · intro y _
    exact (List.nodup_range f.width).map (fun a b h => congrArg Prod.fst h)
  · refine (List.pairwise_lt_range f.height).imp ?_
    intro y1 y2 hlt
    intro p hp1 hp2
    simp only [List.mem_map, List.mem_range] at hp1 hp2
    obtain ⟨x1, _, rfl⟩ := hp1
    obtain ⟨x2, _, h2⟩ := hp2
    exact absurd (congrArg Prod.snd h2.symm) (by simpa using hlt.ne)

lemma nodup_transparentList (f : Frame) : (transparentList f).Nodup :=
  (nodup_pixelList f).filter _

/-! ## Claims about the transparency-region detector -/

/-- C1.  A frame whose low-alpha pixels form exactly the axis-aligned
rectangle `[l, l+w) × [t, t+h)`, covering at least 5% of the frame's pixels
and with both dimensions at least 20% of the corresponding frame dimension,
makes `detectFramePlacement` return exactly that rectangle as
`{top, left, width, height}`. -/
theorem detect_exact_rectangle (f : Frame) (l t w h : Nat)
    (hw : 0 < w) (hh : 0 < h)
    (hlw : l + w ≤ f.width) (hth : t + h ≤ f.height)
    (halpha : ∀ x y, x < f.width → y < f.height →
      (alphaAt f x y < 25 ↔ (l ≤ x ∧ x < l + w ∧ t ≤ y ∧ y < t + h)))
    (hcover : f.width * f.height ≤ 20 * (w * h))
    (hwfloor : f.width ≤ 5 * w) (hhfloor : f.height ≤ 5 * h) :
    detectFramePlacement f = ⟨t, l, w, h⟩ := by
  have hmemiff : ∀ p : Nat × Nat, p ∈ transparentList f ↔
      (l ≤ p.1 ∧ p.1 < l + w ∧ t ≤ p.2 ∧ p.2 < t + h) := by
    intro p
    rw [mem_transparentList]
    constructor
    · rintro ⟨⟨hx, hy⟩, ha⟩
      exact (halpha p.1 p.2 hx hy).mp ha
    · intro hr
      have hx : p.1 < f.width := by omega
      have hy : p.2 < f.height := by omega
      exact ⟨⟨hx, hy⟩, (halpha p.1 p.2 hx hy).mpr hr⟩
  have hcount : tpCount f = w * h := by
    have h1 : (transparentList f).toFinset =
        Finset.Ico l (l + w) ×ˢ Finset.Ico t (t + h) := by
      ext p
      rw [List.mem_toFinset, hmemiff p, Finset.mem_product, Finset.mem_Ico, Finset.mem_Ico]
      tauto
    have h2 := List.toFinset_card_of_nodup (nodup_transparentList f)
    unfold tpCount
    rw [← h2, h1, Finset.card_product, Nat.card_Ico, Nat.card_Ico,
      Nat.add_sub_cancel_left, Nat.add_sub_cancel_left]
  have hminx : minXv f = l := by
    unfold minXv
    apply le_antisymm
    · exact foldl_min_le_mem (fun p => p.1) (transparentList f) f.width (l, t)
        ((hmemiff (l, t)).mpr ⟨le_rfl, by omega, le_rfl, by omega⟩)
    · exact le_foldl_min (fun p => p.1) (transparentList f) f.width l (by omega)
        (fun p hp => ((hmemiff p).mp hp).1)
  have hminy : minYv f = t := by
    unfold minYv
    apply le_antisymm
    · exact foldl_min_le_mem (fun p => p.2) (transparentList f) f.height (l, t)
        ((hmemiff (l, t)).mpr ⟨le_rfl, by omega, le_rfl, by omega⟩)
    · exact le_foldl_min (fun p => p.2) (transparentList f) f.height t (by omega)
        (fun p hp => ((hmemiff p).mp hp).2.2.1)
  have hmaxx : maxXv f = l + w - 1 := by
    unfold maxXv
    apply le_antisymm
    · exact foldl_max_le (fun p => p.1) (transparentList f) 0 (l + w - 1) (by omega)
        (fun p hp => by have := (hmemiff p).mp hp; show p.1 ≤ l + w - 1; omega)
    · exact mem_le_foldl_max (fun p => p.1) (transparentList f) 0 (l + w - 1, t)
        ((hmemiff (l + w - 1, t)).mpr ⟨by omega, by omega, le_rfl, by omega⟩)
  have hmaxy : maxYv f = t + h - 1 := by
    unfold maxYv
    apply le_antisymm
    · exact foldl_max_le (fun p => p.2) (transparentList f) 0 (t + h - 1) (by omega)
        (fun p hp => by have := (hmemiff p).mp hp; show p.2 ≤ t + h - 1; omega)
    · exact mem_le_foldl_max (fun p => p.2) (transparentList f) 0 (l, t + h - 1)
        ((hmemiff (l, t + h - 1)).mpr ⟨le_rfl, by omega, by omega, by omega⟩)
  have hnot : ¬(tpCount f = 0 ∨ 20 * tpCount f < f.width * f.height) := by
    rw [hcount]
    push_neg
    constructor
    · have := Nat.mul_pos hw hh
      omega
    · omega
  unfold detectFramePlacement
  rw [if_neg hnot]
  dsimp only
  rw [hminx, hminy, hmaxx, hmaxy]
  have e1 : l + w - 1 - l + 1 = w := by omega
  have e2 : t + h - 1 - t + 1 = h := by omega
  rw [e1, e2, max_eq_left (by omega : f.width / 5 ≤ w),
      max_eq_left (by omega : f.height / 5 ≤ h),
      min_eq_left (by omega : w ≤ f.width - l),
      min_eq_left (by omega : h ≤ f.height - t)]

/-- A frame of the `rectFrame` family has its low-alpha pixels exactly on the
rectangle `[l, l+w) × [t, t+h)`. -/
lemma rectFrame_alpha_iff (W H l t w h x y : Nat) (hx : x < W) (_hy : y < H) :
    (alphaAt (rectFrame W H l t w h) x y < 25 ↔
      (l ≤ x ∧ x < l + w ∧ t ≤ y ∧ y < t + h)) := by
  have hW : 0 < W := lt_of_le_of_lt (Nat.zero_le x) hx
  have h1 : (y * W + x) % W = x := by
    rw [mul_comm y W, Nat.mul_add_mod]
    exact Nat.mod_eq_of_lt hx
  have h2 : (y * W + x) / W = y := by
    rw [mul_comm y W, Nat.mul_add_div hW, Nat.div_eq_of_lt hx, Nat.add_zero]
  unfold alphaAt rectFrame
  dsimp only
  rw [if_pos rfl, if_pos (by omega : ((y * W + x) * 4 + 3) % 4 = 3),
      (by omega : ((y * W + x) * 4 + 3) / 4 = y * W + x), h1, h2]
  split_ifs with hc
  · exact iff_of_true (by norm_num) hc
  · exact iff_of_false (by norm_num) hc

/-- C1 witness: the spec's 1000×1000 scenario — a 400×300 low-alpha rectangle
at `(300, 350)` (12% coverage) yields `{top: 350, left: 300, width: 400,
height: 300}`. -/
theorem detect_exact_rectangle_witness :
    detectFramePlacement (rectFrame 1000 1000 300 350 400 300) =
      ⟨350, 300, 400, 300⟩ :=
  detect_exact_rectangle (rectFrame 1000 1000 300 350 400 300) 300 350 400 300
    (by decide) (by decide) (by decide) (by decide)
    (fun x y hx hy => rectFrame_alpha_iff 1000 1000 300 350 400 300 x y hx hy)
    (by decide) (by decide) (by decide)

/-- C8.  A frame with no alpha channel (3 channels), or with no low-alpha
pixel, or whose low-alpha pixels cover less than 5% of the pixels, makes
`detectFramePlacement` return the full-frame rectangle. -/
theorem detect_fallback_full_frame (f : Frame)
    (h : f.channels = 3 ∨
      (∀ x y, x < f.width → y < f.height → ¬ alphaAt f x y < 25) ∨
      20 * tpCount f < f.width * f.height) :
    detectFramePlacement f = ⟨0, 0, f.width, f.height⟩ := by
  have hfb : tpCount f = 0 ∨ 20 * tpCount f < f.width * f.height := by
    rcases h with h3 | hno | hlt
    · left
      have hnil : transparentList f = [] := by
        apply List.filter_eq_nil_iff.mpr
        intro p _
        simp only [decide_eq_true_eq]
        unfold alphaAt
        rw [if_neg (by omega)]
        norm_num
      unfold tpCount
      rw [hnil]
      rfl
    · left
      have hnil : transparentList f = [] := by
        apply List.filter_eq_nil_iff.mpr
        intro p hp
        have hb := mem_pixelList.mp hp
        simp only [decide_eq_true_eq]
        exact hno p.1 p.2 hb.1 hb.2
      unfold tpCount
      rw [hnil]
      rfl
    · right
      exact hlt
  unfold detectFramePlacement
  rw [if_pos hfb]

/-- C8 witness: a 2×2 three-channel frame (no alpha) falls back to the full
frame. -/
theorem detect_fallback_full_frame_witness :
    (⟨2, 2, 3, fun _ => 0⟩ : Frame).channels = 3 ∧
    detectFramePlacement ⟨2, 2, 3, fun _ => 0⟩ = ⟨0, 0, 2, 2⟩ :=
  ⟨rfl, detect_fallback_full_frame ⟨2, 2, 3, fun _ => 0⟩ (Or.inl rfl)⟩

/-- C4 counterexample: a 10×10 frame whose low-alpha region is the rightmost
pixel column (10% coverage, so no fallback) gets a placement of width 1,
strictly below the claimed floor `⌊0.2·10⌋ = 2`: the 20%-floor is clamped
away at the frame's right edge. -/
theorem detect_min_floor_cex :
    (detectFramePlacement (rectFrame 10 10 9 0 1 10)).width <
      (rectFrame 10 10 9 0 1 10).width / 5 := by decide

/-- C4 as amended: each returned dimension is at least the 20% floor *clamped
to the frame boundary at the returned offset*: `width ≥ min(⌊0.2·frameWidth⌋,
frameWidth − left)` and `height ≥ min(⌊0.2·frameHeight⌋, frameHeight − top)`. -/
theorem detect_dims_min_clamped (f : Frame) :
    min (f.width / 5) (f.width - (detectFramePlacement f).left) ≤
      (detectFramePlacement f).width ∧
    min (f.height / 5) (f.height - (detectFramePlacement f).top) ≤
      (detectFramePlacement f).height := by
  unfold detectFramePlacement
  split_ifs with hfb
  · dsimp only
    constructor
    · rw [Nat.sub_zero]
      exact min_le_right _ _
    · rw [Nat.sub_zero]
      exact min_le_right _ _
  · dsimp only
    exact ⟨min_le_min (le_max_right _ _) le_rfl, min_le_min (le_max_right _ _) le_rfl⟩

/-! ## Claims about the encoding pipeline -/

/-- C7 counterexample: with the default quality (95) and any placement, the
intermediate steps of `applyFrame` already contain one quality-controlled
lossy (JPEG) encode — the resized photo is JPEG-compressed *before*
compositing — and the full process-and-save pipeline performs two lossy
encodes, not one. -/
theorem lossy_encode_once_cex :
    (applyFrameOps 95 ⟨0, 0, 100, 100⟩).countP isLossyEncode = 1 ∧
    (processAndSaveOps 95 95 ⟨0, 0, 100, 100⟩).countP isLossyEncode = 2 :=
  ⟨rfl, rfl⟩

/-- C7 as amended: for every default quality, output quality and placement,
quality-controlled lossy re-encoding happens exactly twice — once inside
`applyFrame` (the resized photo is JPEG-encoded at the configured default
quality before compositing) and once at the final output encode of
`saveImage` with its explicit quality parameter. -/
theorem lossy_encode_exactly_twice (dq q : Nat) (p : Placement) :
    (applyFrameOps dq p).countP isLossyEncode = 1 ∧
    (saveImageOps q).countP isLossyEncode = 1 ∧
    (processAndSaveOps dq q p).countP isLossyEncode = 2 :=
  ⟨rfl, rfl, rfl⟩

/-! ## Claims about the retention manager -/

/-- A single over-age artifact, well under the size budget by itself.  With
`now = 172800000` (48h) it is 48 hours old, exceeding the 24h age budget. -/
def overAgeStore : List FileRec := [⟨"old.jpg", 52428800, 0, false⟩]

/-- C2: `runFullCleanup` does not run the size pass over the survivors of the
age pass.  On a store holding a single 50MB artifact aged 48h, the age pass
deletes it (result `{1, 0}`), yet the size pass — launched concurrently by
`Promise.all` over the same pre-cleanup snapshot — reports a total size of
52428800 bytes.  Over the age pass's survivors (the empty store) the ordered
run the spec describes would report total size 0. -/
theorem runFullCleanup_uses_initial_snapshot :
    (runFullCleanup defaultCleanupConfig 172800000 overAgeStore).1.1 =
      .ok ⟨1, 0⟩ ∧
    (runFullCleanup defaultCleanupConfig 172800000 overAgeStore).2.1 =
      .ok ⟨0, 52428800⟩ ∧
    (runRetentionOrderedSpec defaultCleanupConfig 172800000 overAgeStore).2.1 =
      .ok ⟨0, 0⟩ := by
  decide

/-- A store whose first over-age artifact fails to delete while a second
over-age artifact would still be deletable. -/
def failingDeleteStore : List FileRec :=
  [⟨"a.jpg", 100, 0, true⟩, ⟨"b.jpg", 200, 0, false⟩]

/-- C3 counterexample: a single deletion failure makes the age pass throw
(`Except.error`), and the pass does **not** continue over the remaining
candidates — the second over-age artifact `b.jpg` is still in the store. -/
theorem age_pass_throws_cex :
    (cleanOldFiles defaultCleanupConfig 90000000 failingDeleteStore).1 =
      .error "a.jpg" ∧
    (⟨"b.jpg", 200, 0, false⟩ : FileRec) ∈
      (cleanOldFiles defaultCleanupConfig 90000000 failingDeleteStore).2 := by
  decide

lemma ageLoop_isOk_iff (cfg : CleanupConfig) (now : Nat) :
    ∀ (cand : List FileRec) (dc ts : Nat) (st : List FileRec),
      ((ageLoop cfg now cand dc ts st).1.isOk = true ↔
        ∀ f ∈ cand,
          (now : Int) - (f.mtime : Int) > (cfg.maxAge : Int) → f.failDelete = false) := by
  intro cand
  induction cand with
  | nil =>
    intro dc ts st
    simp [ageLoop, Except.isOk, Except.toBool]
  | cons f rest ih =>
    intro dc ts st
    simp only [ageLoop, List.forall_mem_cons]
    split_ifs with hage hfail
    · constructor
      · intro hcon
        simp [Except.isOk, Except.toBool] at hcon
      · rintro ⟨hf, -⟩
        rw [hf (by exact_mod_cast hage)] at hfail
        cases hfail
    · rw [ih (dc + 1) ts (eraseName st f.name)]
      constructor
      · intro hrest
        exact ⟨fun _ => Bool.not_eq_true f.failDelete ▸ hfail, hrest⟩
      · rintro ⟨-, hrest⟩
        exact hrest
    · rw [ih dc (ts + f.size) st]
      constructor
      · intro hrest
        exact ⟨fun hc => absurd hc (by exact_mod_cast hage), hrest⟩
      · rintro ⟨-, hrest⟩
        exact hrest

lemma sizeLoop_isOk_of_nofail (cfg : CleanupConfig) :
    ∀ (cand : List FileRec) (dc ts : Nat) (st : List FileRec),
      (∀ f ∈ cand, f.failDelete = false) →
      (sizeLoop cfg cand dc ts st).1.isOk = true := by
  intro cand
  induction cand with
  | nil =>
    intro dc ts st _
    simp [sizeLoop, Except.isOk, Except.toBool]
  | cons f rest ih =>
    intro dc ts st hnf
    simp only [sizeLoop]
    split_ifs with hstop hfail
    · simp [Except.isOk, Except.toBool]
    · rw [hnf f (List.mem_cons_self f rest)] at hfail
      cases hfail
    · exact ih (dc + 1) (ts - f.size) (eraseName st f.name)
        (fun g hg => hnf g (List.mem_cons_of_mem f hg))

/-- C3 as amended: an individual deletion failure inside a retention pass is
caught, logged and **re-thrown**, aborting the pass.  The age pass completes
with a `{deletedCount, totalSize}` result precisely when no over-age
candidate's deletion fails, and the size pass completes whenever none of its
candidates' deletions fail. -/
theorem retention_pass_aborts_on_deletion_failure
    (cfg : CleanupConfig) (now : Nat) (store : List FileRec) :
    ((cleanOldFiles cfg now store).1.isOk = true ↔
      ∀ f ∈ getUploadFiles store,
        (now : Int) - (f.mtime : Int) > (cfg.maxAge : Int) → f.failDelete = false) ∧
    ((∀ f ∈ getUploadFiles store, f.failDelete = false) →
      (cleanBySize cfg store).1.isOk = true) := by
  constructor
  · exact ageLoop_isOk_iff cfg now (getUploadFiles store) 0 0 store
  · intro hnf
    unfold cleanBySize
    dsimp only
    split_ifs with hunder
    · simp [Except.isOk, Except.toBool]
    · apply sizeLoop_isOk_of_nofail
      intro f hf
      exact hnf f ((List.perm_insertionSort _ _).mem_iff.mp hf)

instance : IsTotal FileRec (fun a b => a.mtime ≤ b.mtime) :=
  ⟨fun a b => le_total a.mtime b.mtime⟩

instance : IsTrans FileRec (fun a b => a.mtime ≤ b.mtime) :=
  ⟨fun _ _ _ hab hbc => le_trans hab hbc⟩

lemma mem_eraseName {st : List FileRec} {n : String} {x : FileRec} :
    x ∈ eraseName st n ↔ x ∈ st ∧ x.name ≠ n := by
  simp [eraseName, List.mem_filter]

lemma mem_foldl_eraseName :
    ∀ (ds : List FileRec) (s : List FileRec) (x : FileRec),
      (x ∈ ds.foldl (fun acc f => eraseName acc f.name) s ↔
        x ∈ s ∧ ∀ d ∈ ds, x.name ≠ d.name) := by
  intro ds
  induction ds with
  | nil =>
    intro s x
    simp
  | cons d ds ih =>
    intro s x
    rw [List.foldl_cons, ih, mem_eraseName]
    simp only [List.forall_mem_cons]
    tauto

lemma sizeLoop_spec (cfg : CleanupConfig) :
    ∀ (cand : List FileRec) (dc : Nat) (st : List FileRec),
      (∀ f ∈ cand, f.failDelete = false) →
      ∃ k, k ≤ cand.length ∧
        sizeLoop cfg cand dc ((cand.map FileRec.size).sum) st =
          (.ok ⟨dc + k, (((cand.drop k)).map FileRec.size).sum⟩,
            (cand.take k).foldl (fun acc f => eraseName acc f.name) st) ∧
        (((cand.drop k)).map FileRec.size).sum ≤ cfg.maxSize := by
  intro cand
  induction cand with
  | nil =>
    intro dc st _
    exact ⟨0, le_rfl, by simp [sizeLoop], by simp⟩
  | cons f rest ih =>
    intro dc st hnf
    by_cases hstop : (((f :: rest)).map FileRec.size).sum ≤ cfg.maxSize
    · refine ⟨0, Nat.zero_le _, ?_, by simpa using hstop⟩
      simp only [sizeLoop]
      rw [if_pos hstop]
      rfl
    · have hfail : f.failDelete = false := hnf f (List.mem_cons_self f rest)
      obtain ⟨k, hk, heq, hle⟩ :=
        ih (dc + 1) (eraseName st f.name) (fun g hg => hnf g (List.mem_cons_of_mem f hg))
      refine ⟨k + 1, by simpa using Nat.succ_le_succ hk, ?_, ?_⟩
      · simp only [sizeLoop]
        rw [if_neg hstop, if_neg (by simp [hfail])]
        have hsum : (((f :: rest)).map FileRec.size).sum - f.size =
            ((rest.map FileRec.size)).sum := by
          simp
        rw [hsum, heq, List.take_succ_cons, List.foldl_cons, List.drop_succ_cons]
        have hdc : dc + 1 + k = dc + (k + 1) := by omega
        rw [hdc]
      · simpa [List.drop_succ_cons] using hle

/-- C5.  When the image files' total size exceeds the budget and no deletion
fails, the size pass returns a result whose total is back within the budget,
and it never deletes an artifact while a strictly older image artifact is
retained (deletion is oldest-first by ascending `mtime`). -/
theorem cleanBySize_oldest_first (cfg : CleanupConfig) (store : List FileRec)
    (hnames : (store.map FileRec.name).Nodup)
    (hfail : ∀ f ∈ store, f.failDelete = false)
    (hover : cfg.maxSize < ((getUploadFiles store).map FileRec.size).sum) :
    (∃ r : CleanResult, (cleanBySize cfg store).1 = .ok r ∧
      r.totalSize ≤ cfg.maxSize) ∧
    (∀ f ∈ store, f ∉ (cleanBySize cfg store).2 →
      ∀ g ∈ (cleanBySize cfg store).2, isImageFile g.name = true →
        f.mtime ≤ g.mtime) := by
  have hperm : (sortByMtime (getUploadFiles store)).Perm (getUploadFiles store) :=
    List.perm_insertionSort _ _
  have hsorted : List.Sorted (fun a b : FileRec => a.mtime ≤ b.mtime)
      (sortByMtime (getUploadFiles store)) :=
    List.sorted_insertionSort _ _
  have hsum : ((sortByMtime (getUploadFiles store)).map FileRec.size).sum =
      ((getUploadFiles store).map FileRec.size).sum :=
    (hperm.map FileRec.size).sum_eq
  have hsub : ∀ x ∈ sortByMtime (getUploadFiles store), x ∈ store := by
    intro x hx
    exact List.mem_of_mem_filter (hperm.mem_iff.mp hx)
  obtain ⟨k, hk, heq, hle⟩ := sizeLoop_spec cfg (sortByMtime (getUploadFiles store)) 0 store
    (fun g hg => hfail g (hsub g hg))
  have hrun : cleanBySize cfg store =
      (.ok ⟨0 + k, (((sortByMtime (getUploadFiles store)).drop k).map FileRec.size).sum⟩,
        ((sortByMtime (getUploadFiles store)).take k).foldl
          (fun acc f => eraseName acc f.name) store) := by
    unfold cleanBySize
    dsimp only
    rw [if_neg (by omega), ← hsum]
    exact heq
  constructor
  · exact ⟨⟨0 + k, (((sortByMtime (getUploadFiles store)).drop k).map FileRec.size).sum⟩,
      by rw [hrun], hle⟩
  · intro f hf hfnot g hg hgimg
    rw [hrun] at hfnot hg
    dsimp only at hfnot hg
    rw [mem_foldl_eraseName] at hfnot hg
    push_neg at hfnot
    obtain ⟨d, hd, hdn⟩ := hfnot hf
    have hdstore : d ∈ store := hsub d (List.take_subset k _ hd)
    have hfd : f = d := List.inj_on_of_nodup_map hnames hf hdstore hdn
    have hgfiles : g ∈ getUploadFiles store := List.mem_filter.mpr ⟨hg.1, hgimg⟩
    have hgsorted : g ∈ sortByMtime (getUploadFiles store) := hperm.mem_iff.mpr hgfiles
    have hgnot : g ∉ (sortByMtime (getUploadFiles store)).take k :=
      fun hgk => (hg.2 g hgk) rfl
    have hgdrop : g ∈ (sortByMtime (getUploadFiles store)).drop k := by
      have hsplit : g ∈ (sortByMtime (getUploadFiles store)).take k ++
          (sortByMtime (getUploadFiles store)).drop k := by
        rw [List.take_append_drop]
        exact hgsorted
      rcases List.mem_append.mp hsplit with h | h
      · exact absurd h hgnot
      · exact h
    have hpw2 : List.Pairwise (fun a b : FileRec => a.mtime ≤ b.mtime)
        ((sortByMtime (getUploadFiles store)).take k ++
          (sortByMtime (getUploadFiles store)).drop k) := by
      rw [List.take_append_drop]
      exact hsorted
    exact (List.pairwise_append.mp hpw2).2.2 f (by rw [hfd]; exact hd) g hgdrop

/-- The spec's size-pass scenario: a 35MB budget. -/
def cfg35MB : CleanupConfig := ⟨24 * 60 * 60 * 1000, 36700160⟩

/-- Five same-age 10MB artifacts. -/
def fiveSameAge : List FileRec :=
  [⟨"p1.jpg", 10485760, 100, false⟩, ⟨"p2.jpg", 10485760, 100, false⟩,
   ⟨"p3.jpg", 10485760, 100, false⟩, ⟨"p4.jpg", 10485760, 100, false⟩,
   ⟨"p5.jpg", 10485760, 100, false⟩]

/-- C5 witness: with five same-age 10MB artifacts and a 35MB budget the size
pass deletes exactly the 2 oldest (the first two, by stable sort), leaving
30MB (31457280 bytes) retained. -/
theorem cleanBySize_oldest_first_witness :
    ((fiveSameAge.map FileRec.name).Nodup ∧
      (∀ f ∈ fiveSameAge, f.failDelete = false) ∧
      cfg35MB.maxSize < ((getUploadFiles fiveSameAge).map FileRec.size).sum) ∧
    (cleanBySize cfg35MB fiveSameAge).1 = .ok ⟨2, 31457280⟩ ∧
    (cleanBySize cfg35MB fiveSameAge).2.map FileRec.name =
      ["p3.jpg", "p4.jpg", "p5.jpg"] ∧
    ((∃ r : CleanResult, (cleanBySize cfg35MB fiveSameAge).1 = .ok r ∧
        r.totalSize ≤ cfg35MB.maxSize) ∧
      (∀ f ∈ fiveSameAge, f ∉ (cleanBySize cfg35MB fiveSameAge).2 →
        ∀ g ∈ (cleanBySize cfg35MB fiveSameAge).2, isImageFile g.name = true →
          f.mtime ≤ g.mtime)) :=
  ⟨⟨by decide, by decide, by decide⟩, by decide, by decide,
    cleanBySize_oldest_first cfg35MB fiveSameAge (by decide) (by decide) (by decide)⟩

lemma ageLoop_cons_nonimage (cfg : CleanupConfig) (now : Nat) (f0 : FileRec)
    (h0 : isImageFile f0.name = false) :
    ∀ (cand : List FileRec), (∀ c ∈ cand, isImageFile c.name = true) →
      ∀ (dc ts : Nat) (st : List FileRec),
        ageLoop cfg now cand dc ts (f0 :: st) =
          ((ageLoop cfg now cand dc ts st).1,
            f0 :: (ageLoop cfg now cand dc ts st).2) := by
  intro cand
  induction cand with
  | nil =>
    intro _ dc ts st
    rfl
  | cons c rest ih =>
    intro hc dc ts st
    have hcimg := hc c (List.mem_cons_self c rest)
    have hne : f0.name ≠ c.name := by
      intro he
      rw [he, hcimg] at h0
      cases h0
    simp only [ageLoop]
    split_ifs with hage hfaild
    · rfl
    · have herase : eraseName (f0 :: st) c.name = f0 :: eraseName st c.name := by
        unfold eraseName
        rw [List.filter_cons_of_pos (by simpa using hne)]
      rw [herase]
      exact ih (fun g hg => hc g (List.mem_cons_of_mem c hg)) (dc + 1) ts (eraseName st c.name)
    · exact ih (fun g hg => hc g (List.mem_cons_of_mem c hg)) dc (ts + c.size) st

lemma sizeLoop_cons_nonimage (cfg : CleanupConfig) (f0 : FileRec)
    (h0 : isImageFile f0.name = false) :
    ∀ (cand : List FileRec), (∀ c ∈ cand, isImageFile c.name = true) →
      ∀ (dc ts : Nat) (st : List FileRec),
        sizeLoop cfg cand dc ts (f0 :: st) =
          ((sizeLoop cfg cand dc ts st).1,
            f0 :: (sizeLoop cfg cand dc ts st).2) := by
  intro cand
  induction cand with
  | nil =>
    intro _ dc ts st
    rfl
  | cons c rest ih =>
    intro hc dc ts st
    have hcimg := hc c (List.mem_cons_self c rest)
    have hne : f0.name ≠ c.name := by
      intro he
      rw [he, hcimg] at h0
      cases h0
    simp only [sizeLoop]
    split_ifs with hstop hfaild
    · rfl
    · rfl
    · have herase : eraseName (f0 :: st) c.name = f0 :: eraseName st c.name := by
        unfold eraseName
        rw [List.filter_cons_of_pos (by simpa using hne)]
      rw [herase]
      exact ih (fun g hg => hc g (List.mem_cons_of_mem c hg)) (dc + 1) (ts - c.size)
        (eraseName st c.name)

/-- C10.  A file whose extension is not `.jpg`/`.jpeg`/`.png`
(case-insensitively) is invisible to the retention manager: adding it to the
store changes neither pass's result, it survives both passes, and the stats
query does not count it (file count, total size, oldest file and its age are
unchanged). -/
theorem nonimage_files_invisible (cfg : CleanupConfig) (now : Nat)
    (f0 : FileRec) (store : List FileRec) (h0 : isImageFile f0.name = false) :
    getUploadFiles (f0 :: store) = getUploadFiles store ∧
    (cleanOldFiles cfg now (f0 :: store)).1 = (cleanOldFiles cfg now store).1 ∧
    (cleanOldFiles cfg now (f0 :: store)).2 =
      f0 :: (cleanOldFiles cfg now store).2 ∧
    (cleanBySize cfg (f0 :: store)).1 = (cleanBySize cfg store).1 ∧
    (cleanBySize cfg (f0 :: store)).2 = f0 :: (cleanBySize cfg store).2 ∧
    getUploadStats now (f0 :: store) = getUploadStats now store := by
  have hfiles : getUploadFiles (f0 :: store) = getUploadFiles store := by
    unfold getUploadFiles
    rw [List.filter_cons_of_neg (by simp [h0])]
  have himg : ∀ c ∈ getUploadFiles store, isImageFile c.name = true :=
    fun c hc => (List.mem_filter.mp hc).2
  have hof : cleanOldFiles cfg now (f0 :: store) =
      ((cleanOldFiles cfg now store).1, f0 :: (cleanOldFiles cfg now store).2) := by
    unfold cleanOldFiles
    rw [hfiles]
    exact ageLoop_cons_nonimage cfg now f0 h0 (getUploadFiles store) himg 0 0 store
  have hsizecand : ∀ c ∈ sortByMtime (getUploadFiles store), isImageFile c.name = true :=
    fun c hc => himg c ((List.perm_insertionSort _ _).mem_iff.mp hc)
  have hbs : cleanBySize cfg (f0 :: store) =
      ((cleanBySize cfg store).1, f0 :: (cleanBySize cfg store).2) := by
    unfold cleanBySize
    dsimp only
    rw [hfiles]
    split_ifs with hunder
    · rfl
    · rw [sizeLoop_cons_nonimage cfg f0 h0 (sortByMtime (getUploadFiles store)) hsizecand 0
        ((getUploadFiles store).map FileRec.size).sum store]
  have hstats : getUploadStats now (f0 :: store) = getUploadStats now store := by
    unfold getUploadStats
    rw [hfiles]
  exact ⟨hfiles, by rw [hof], by rw [hof], by rw [hbs], by rw [hbs], hstats⟩

/-- A non-image file. -/
def txtFile : FileRec := ⟨"notes.txt", 5, 0, false⟩

/-- A one-image store. -/
def jpgStore : List FileRec := [⟨"a.jpg", 10, 0, false⟩]

/-- C10 witness at a concrete non-image file and store. -/
theorem nonimage_files_invisible_witness :
    isImageFile txtFile.name = false ∧
    (getUploadFiles (txtFile :: jpgStore) = getUploadFiles jpgStore ∧
      (cleanOldFiles defaultCleanupConfig 1000 (txtFile :: jpgStore)).1 =
        (cleanOldFiles defaultCleanupConfig 1000 jpgStore).1 ∧
      (cleanOldFiles defaultCleanupConfig 1000 (txtFile :: jpgStore)).2 =
        txtFile :: (cleanOldFiles defaultCleanupConfig 1000 jpgStore).2 ∧
      (cleanBySize defaultCleanupConfig (txtFile :: jpgStore)).1 =
        (cleanBySize defaultCleanupConfig jpgStore).1 ∧
      (cleanBySize defaultCleanupConfig (txtFile :: jpgStore)).2 =
        txtFile :: (cleanBySize defaultCleanupConfig jpgStore).2 ∧
      getUploadStats 1000 (txtFile :: jpgStore) = getUploadStats 1000 jpgStore) :=
  ⟨by decide,
    nonimage_files_invisible defaultCleanupConfig 1000 txtFile jpgStore (by decide)⟩

lemma placement_fits (f : Frame) :
    (detectFramePlacement f).left + (detectFramePlacement f).width ≤ f.width ∧
    (detectFramePlacement f).top + (detectFramePlacement f).height ≤ f.height := by
  have hminxle : minXv f ≤ f.width := by
    unfold minXv
    exact foldl_min_le_init (fun p => p.1) (transparentList f) f.width
  have hminyle : minYv f ≤ f.height := by
    unfold minYv
    exact foldl_min_le_init (fun p => p.2) (transparentList f) f.height
  unfold detectFramePlacement
  split_ifs with hfb
  · dsimp only
    omega
  · dsimp only
    constructor
    · have := min_le_right (max (maxXv f - minXv f + 1) (f.width / 5)) (f.width - minXv f)
      omega
    · have := min_le_right (max (maxYv f - minYv f + 1) (f.height / 5)) (f.height - minYv f)
      omega

/-- C6.  The composite produced by `applyFrame` has the frame's dimensions;
the detected placement rectangle lies inside the frame; every frame pixel
outside the placement rectangle is unchanged; and inside the rectangle the
composite carries the (re-encoded) cover-fitted photo sampled at offset
`(left, top)` — the photo is written only inside the rectangle.  This holds
for every photo and every per-pixel behaviour `codecPix` of the lossy
codec. -/
theorem applyFrame_preserves_frame (codecPix : Raster → Nat → Nat → Nat)
    (photo : Raster) (f : Frame) :
    (applyFrame codecPix photo f).width = f.width ∧
    (applyFrame codecPix photo f).height = f.height ∧
    (detectFramePlacement f).left + (detectFramePlacement f).width ≤ f.width ∧
    (detectFramePlacement f).top + (detectFramePlacement f).height ≤ f.height ∧
    (∀ x y,
      (x < (detectFramePlacement f).left ∨
        (detectFramePlacement f).left + (detectFramePlacement f).width ≤ x ∨
        y < (detectFramePlacement f).top ∨
        (detectFramePlacement f).top + (detectFramePlacement f).height ≤ y) →
      (applyFrame codecPix photo f).pix x y = (frameRaster f).pix x y) ∧
    (∀ x y,
      ((detectFramePlacement f).left ≤ x ∧
        x < (detectFramePlacement f).left + (detectFramePlacement f).width ∧
        (detectFramePlacement f).top ≤ y ∧
        y < (detectFramePlacement f).top + (detectFramePlacement f).height) →
      (applyFrame codecPix photo f).pix x y =
        codecPix (coverResize photo (detectFramePlacement f).width
            (detectFramePlacement f).height)
          (x - (detectFramePlacement f).left) (y - (detectFramePlacement f).top)) := by
  obtain ⟨hfw, hfh⟩ := placement_fits f
  refine ⟨rfl, rfl, hfw, hfh, ?_, ?_⟩
  · intro x y hout
    show (if (detectFramePlacement f).left ≤ x ∧
        x < (detectFramePlacement f).left +
          (jpegReencode codecPix (coverResize photo (detectFramePlacement f).width
            (detectFramePlacement f).height)).width ∧
        (detectFramePlacement f).top ≤ y ∧
        y < (detectFramePlacement f).top +
          (jpegReencode codecPix (coverResize photo (detectFramePlacement f).width
            (detectFramePlacement f).height)).height then _ else (frameRaster f).pix x y) =
      (frameRaster f).pix x y
    rw [if_neg]
    show ¬((detectFramePlacement f).left ≤ x ∧
      x < (detectFramePlacement f).left + (detectFramePlacement f).width ∧
      (detectFramePlacement f).top ≤ y ∧
      y < (detectFramePlacement f).top + (detectFramePlacement f).height)
    omega
  · intro x y hin
    show (if (detectFramePlacement f).left ≤ x ∧
        x < (detectFramePlacement f).left +
          (jpegReencode codecPix (coverResize photo (detectFramePlacement f).width
            (detectFramePlacement f).height)).width ∧
        (detectFramePlacement f).top ≤ y ∧
        y < (detectFramePlacement f).top +
          (jpegReencode codecPix (coverResize photo (detectFramePlacement f).width
            (detectFramePlacement f).height)).height then
        (jpegReencode codecPix (coverResize photo (detectFramePlacement f).width
          (detectFramePlacement f).height)).pix
          (x - (detectFramePlacement f).left) (y - (detectFramePlacement f).top)
      else (frameRaster f).pix x y) =
      codecPix (coverResize photo (detectFramePlacement f).width
          (detectFramePlacement f).height)
        (x - (detectFramePlacement f).left) (y - (detectFramePlacement f).top)
    rw [if_pos]
    · rfl
    · exact hin
